import Mathlib

/-!
SQLassie: parsing adapter and IN-subselect node.

A shallow embedding of `ParserInterface.cpp` (the session object that drives the
grammar engine, memoises the outcome of the parse and accumulates the token
fingerprint) and of `InSubselectNode.cpp` (the `IN (subselect)` AST node).

Conventions.
* `ParserInterface::hashType` is declared in a header; its width in bits is the
  parameter `w` of every definition that touches the hash.  Values of the type
  are naturals below `2 ^ w`; each arithmetic operator wraps modulo `2 ^ w`.
* The type of `tokensCount` is declared in the same header; the counter is a
  natural number that does not wrap.
* `QueryRisk`, `YYSTYPE`, the grammar engine `yyparse` and the raw lexer
  `sql_lex` are declared outside the two files; they appear as parameters.
* The process-wide mutex of `parse` has no effect on a single session and is
  left out.
* `assert` is modelled as in a debug build: a failed assertion is `none`.
-/

namespace SQLassie

/-! ## Unsigned arithmetic of `hashType` -/

/-- Conversion of an `int` to the `w`-bit unsigned type. -/
def toHashType (w : Nat) (x : Int) : Nat := (x % (2 : Int) ^ w).toNat

/-- Wrapping addition of the `w`-bit unsigned type. -/
def uadd (w a b : Nat) : Nat := (a + b) % 2 ^ w

/-- Wrapping subtraction of the `w`-bit unsigned type. -/
def usub (w a b : Nat) : Nat := (a % 2 ^ w + (2 ^ w - b % 2 ^ w)) % 2 ^ w

/-- Left shift of the `w`-bit unsigned type: the bits shifted out are lost. -/
def ushl (w a k : Nat) : Nat := (a * 2 ^ k) % 2 ^ w

/-- The function `sdbmHash`: `lexCode + (ht << 6) + (ht << 16) - ht`, evaluated
left to right in the unsigned type. -/
def sdbmHash (w : Nat) (lexCode : Int) (ht : Nat) : Nat :=
  usub w (uadd w (uadd w (toHashType w lexCode) (ushl w ht 6)) (ushl w ht 16)) ht

/-! ## Data model -/

/-- The class `ParserInterface::QueryHash`: the token fingerprint. -/
structure QueryHash where
  hash : Nat
  tokensCount : Nat
  deriving DecidableEq

/-- The default constructor `QueryHash::QueryHash()`. -/
def QueryHash.new : QueryHash := { hash := 0, tokensCount := 0 }

/-- The free function `operator==` on two `QueryHash` values. -/
def QueryHash.beq (hash1 hash2 : QueryHash) : Bool :=
  hash1.hash == hash2.hash && hash1.tokensCount == hash2.tokensCount

/-- The function `hash_value`, with `size_t` of `s` bits. -/
def hash_value (s : Nat) (qh : QueryHash) : Nat := (qh.hash + qh.tokensCount) % 2 ^ s

/-- Modelled from the spec: the record type `QueryRisk` is declared in
`QueryRisk.hpp`.  The adapter reads the one field `valid`; the remaining
attributes are the payload `attrs`. -/
structure QueryRisk (α : Type) where
  valid : Bool
  attrs : α

/-- Modelled from the spec: the type of the member `scannerContext_` is
declared in a header; it holds the three staging stacks `identifiers`,
`quotedStrings` and `numbers` that `parse` clears and inspects. -/
structure ScannerContext where
  identifiers : List String
  quotedStrings : List String
  numbers : List String

/-- Emptiness of the three staging stacks. -/
def ScannerContext.allEmpty (sc : ScannerContext) : Bool :=
  sc.identifiers.isEmpty && sc.quotedStrings.isEmpty && sc.numbers.isEmpty

/-- The three `clearStack` calls made at the start of a parsing attempt. -/
def clearStacks (_sc : ScannerContext) : ScannerContext :=
  { identifiers := [], quotedStrings := [], numbers := [] }

/-- What the grammar engine and the raw lexer can read and write besides the
scan buffer: the caller's risk record and the staging stacks. -/
structure World (α : Type) where
  qr : QueryRisk α
  sc : ScannerContext

/-- One token the raw lexer will return: its code, its semantic value, and what
recognising it does to the risk record and the staging stacks. -/
structure Lexeme (α LV : Type) where
  code : Int
  lval : LV
  effect : World α → World α

/-- The scanner behind `scannerPimpl_`: the tokens of the buffer that have not
been returned yet.  `emitted` is a history of every code `sql_lex` has returned
on this scanner; no code reads it. -/
structure Scanner (α LV : Type) where
  pending : List (Lexeme α LV)
  emitted : List Int

/-- The class `ParserInterface`: one session per query string. -/
structure ParserInterface (α LV : Type) where
  scannerContext_ : ScannerContext
  parsed_ : Bool
  qr_ : QueryRisk α
  parserStatus_ : Int
  bufferLen_ : Nat
  tokensHash_ : QueryHash
  scannerPimpl_ : Scanner α LV

/-- The constructor `ParserInterface::ParserInterface(buffer)`.  `lexemes` is
the token stream the external scanner produces for `buffer`, and `qr0` is a
`QueryRisk` as its default constructor leaves it. -/
def ParserInterface.new {α LV : Type} (qr0 : QueryRisk α) (bufferLen : Nat)
    (lexemes : List (Lexeme α LV)) : ParserInterface α LV :=
  { scannerContext_ := { identifiers := [], quotedStrings := [], numbers := [] }
    parsed_ := false
    qr_ := qr0
    parserStatus_ := 0
    bufferLen_ := bufferLen
    tokensHash_ := QueryHash.new
    scannerPimpl_ := { pending := lexemes, emitted := [] } }

/-! ## The raw lexer and the lexical bridge -/

/-- What one call of the lexer hands back. -/
structure LexResult (α LV : Type) where
  lexCode : Int
  lval : Option LV
  qr : QueryRisk α
  pi : ParserInterface α LV

/-- Modelled from the spec: the raw lexer `sql_lex` is generated from the scanner
description, which is not among the sources.  On the finite buffer of a session
it returns the next pending token, or `0` (end of input) forever once the buffer
is exhausted.  `lvalp` says whether the caller passed a non-null `YYSTYPE*`; the
semantic value is handed over only then. -/
def sql_lex {α LV : Type} (lvalp : Bool) (wd : World α) (s : Scanner α LV) :
    Int × Option LV × World α × Scanner α LV :=
  match s.pending with
  | [] => (0, none, wd, { s with emitted := s.emitted ++ [0] })
  | t :: rest =>
    (t.code, if lvalp then some t.lval else none, t.effect wd,
      { pending := rest, emitted := s.emitted ++ [t.code] })

/-- The function `yylex`: call the raw lexer, fold the code into the
fingerprint when it is above 255, return the code. -/
def yylex {α LV : Type} (w : Nat) (lvalp : Bool) (qr : QueryRisk α)
    (pi : ParserInterface α LV) : LexResult α LV :=
  let r := sql_lex lvalp { qr := qr, sc := pi.scannerContext_ } pi.scannerPimpl_
  let lexCode := r.1
  let pi1 : ParserInterface α LV :=
    { pi with scannerContext_ := r.2.2.1.sc, scannerPimpl_ := r.2.2.2 }
  let pi2 : ParserInterface α LV :=
    if lexCode > 255 then
      { pi1 with
        tokensHash_ :=
          { tokensCount := pi1.tokensHash_.tokensCount + 1
            hash := sdbmHash w lexCode pi1.tokensHash_.hash } }
    else pi1
  { lexCode := lexCode, lval := r.2.1, qr := r.2.2.1.qr, pi := pi2 }

/-! ## The grammar engine -/

/-- Modelled from the spec: the grammar engine `yyparse` is generated from the
grammar, which is not among the sources.  It is given by the strategy it
follows: it either returns a status, leaving the record and the stacks as `wd`,
or leaves them as `wd`, calls `yylex` and goes on according to the code, the
semantic value and the state the lexer left behind.  Every run makes finitely
many calls, so every run returns. -/
inductive Engine (α LV : Type) where
  | ret (status : Int) (wd : World α) : Engine α LV
  | call (wd : World α) (k : Int → Option LV → World α → Engine α LV) : Engine α LV

/-- One run of the grammar engine against a session. -/
def runEngine {α LV : Type} (w : Nat) :
    Engine α LV → ParserInterface α LV → Int × QueryRisk α × ParserInterface α LV
  | .ret status wd, pi => (status, wd.qr, { pi with scannerContext_ := wd.sc })
  | .call wd k, pi =>
    let r := yylex w true wd.qr { pi with scannerContext_ := wd.sc }
    runEngine w (k r.lexCode r.lval { qr := r.qr, sc := r.pi.scannerContext_ }) r.pi

/-! ## `parse` and `getHash` -/

/-- The loop `while (yylex(NULL, qrPtr, this) > MIN_VALID_TOKEN);`, with a bound
on the number of iterations. -/
def drainFuel {α LV : Type} (w : Nat) :
    Nat → QueryRisk α → ParserInterface α LV → QueryRisk α × ParserInterface α LV
  | 0, qr, pi => (qr, pi)
  | n + 1, qr, pi =>
    let r := yylex w false qr pi
    if r.lexCode > 255 then drainFuel w n r.qr r.pi else (r.qr, r.pi)

/-- The drain loop.  Every iteration but the last removes a pending token, so
one more iteration than there are pending tokens is enough. -/
def drain {α LV : Type} (w : Nat) (qr : QueryRisk α) (pi : ParserInterface α LV) :
    QueryRisk α × ParserInterface α LV :=
  drainFuel w (pi.scannerPimpl_.pending.length + 1) qr pi

/-- What `parse` returns: the status code, the caller's record as the call
leaves it, and the session. -/
structure ParseResult (α LV : Type) where
  status : Int
  qrOut : QueryRisk α
  pi : ParserInterface α LV

/-- The method `ParserInterface::parse`.  `yyparse` is the grammar engine as a
function of the record and stacks it is started on, `qrPtr` is the content of
the caller's record.  `none` is a failed debug assertion. -/
def parse {α LV : Type} (w : Nat) (yyparse : World α → Engine α LV)
    (qrPtr : QueryRisk α) (pi : ParserInterface α LV) : Option (ParseResult α LV) :=
  if pi.parsed_ then
    some { status := pi.parserStatus_, qrOut := pi.qr_, pi := pi }
  else
    let pi1 : ParserInterface α LV :=
      { pi with scannerContext_ := clearStacks pi.scannerContext_ }
    let r := runEngine w (yyparse { qr := qrPtr, sc := pi1.scannerContext_ }) pi1
    let parserStatus := r.1
    let qr1 := r.2.1
    let pi2 := r.2.2
    if parserStatus = 0 ∧ qr1.valid = true ∧ pi2.scannerContext_.allEmpty = false then
      none
    else
      let pi3 : ParserInterface α LV :=
        { pi2 with qr_ := qr1, parserStatus_ := parserStatus, parsed_ := true }
      if parserStatus ≠ 0 then
        let d := drain w qr1 pi3
        some { status := parserStatus, qrOut := d.1, pi := d.2 }
      else
        some { status := parserStatus, qrOut := qr1, pi := pi3 }

/-- The method `ParserInterface::getHash`; `none` is the failed assertion. -/
def getHash {α LV : Type} (pi : ParserInterface α LV) : Option QueryHash :=
  if pi.parsed_ then some pi.tokensHash_ else none

/-! ## The fingerprint of a sequence of token codes -/

/-- The fingerprint update the spec describes for one token code. -/
def foldCode (w : Nat) (qh : QueryHash) (c : Int) : QueryHash :=
  if c > 255 then
    { tokensCount := qh.tokensCount + 1, hash := sdbmHash w c qh.hash }
  else qh

/-- The fingerprint the spec assigns to a sequence of token codes: start from
the empty fingerprint and fold in every code above 255, in order. -/
def fingerprintOf (w : Nat) (codes : List Int) : QueryHash :=
  codes.foldl (foldCode w) QueryHash.new

/-- The polynomial `∑ cᵢ · 65599 ^ (n - 1 - i)` of a sequence `c₀ … cₙ₋₁`. -/
def sdbmPoly (cs : List Int) : Int :=
  ∑ i : Fin cs.length, cs.get i * 65599 ^ (cs.length - 1 - (i : Nat))

/-- The fingerprint of a session is the fingerprint of the codes its scanner
has returned so far. -/
def FingerprintInv {α LV : Type} (w : Nat) (pi : ParserInterface α LV) : Prop :=
  pi.tokensHash_ = fingerprintOf w pi.scannerPimpl_.emitted

/-- The codes above 255 returned so far, followed by those still pending, are
the codes above 255 of the list `F`. -/
def StreamInv {α LV : Type} (F : List Int) (pi : ParserInterface α LV) : Prop :=
  pi.scannerPimpl_.emitted.filter (fun c => decide (c > 255))
      ++ (pi.scannerPimpl_.pending.map fun t => t.code).filter (fun c => decide (c > 255))
    = F.filter (fun c => decide (c > 255))

/-- Every pending token has a code above 255. -/
def AllAbove {α LV : Type} (pi : ParserInterface α LV) : Prop :=
  ∀ t ∈ pi.scannerPimpl_.pending, t.code > 255

/-- Two strategies of the grammar engine take the same decisions: both return
the same status, or both call `yylex` and, given the same code, go on taking the
same decisions whatever semantic values, records and stacks they see. -/
inductive SameControl {α LV : Type} : Engine α LV → Engine α LV → Prop where
  | ret (status : Int) (wd1 wd2 : World α) : SameControl (.ret status wd1) (.ret status wd2)
  | call (wd1 wd2 : World α) (k1 k2 : Int → Option LV → World α → Engine α LV)
      (h : ∀ c v1 v2 w1 w2, SameControl (k1 c v1 w1) (k2 c v2 w2)) :
      SameControl (.call wd1 k1) (.call wd2 k2)

/-- Two sessions have the same fingerprint and the same pending token codes. -/
def SameCodes {α LV : Type} (pi1 pi2 : ParserInterface α LV) : Prop :=
  pi1.tokensHash_ = pi2.tokensHash_
    ∧ (pi1.scannerPimpl_.pending.map fun t => t.code)
      = (pi2.scannerPimpl_.pending.map fun t => t.code)

/-! ## Concrete sessions -/

/-- The calls `parse(&qr)` a caller makes one after the other on one session,
each with its own record content; `none` if an assertion failed on the way. -/
def parseCalls {α LV : Type} (w : Nat) (yyparse : World α → Engine α LV) :
    List (QueryRisk α) → ParserInterface α LV → Option (ParserInterface α LV)
  | [], pi => some pi
  | q :: qs, pi =>
    match parse w yyparse q pi with
    | none => none
    | some r => parseCalls w yyparse qs r.pi

/-- A token whose recognition leaves the record and the stacks alone. -/
def plainToken (code : Int) (lval : Nat) : Lexeme Nat Nat :=
  { code := code, lval := lval, effect := fun wd => wd }

/-- A token preceded by a comment: the lexer counts the comment in the record
(the payload is the comment counter) before it returns the token. -/
def tokenAfterComment (code : Int) (lval : Nat) : Lexeme Nat Nat :=
  { code := code, lval := lval
    effect := fun wd => { wd with qr := { wd.qr with attrs := wd.qr.attrs + 1 } } }

/-- A grammar engine that reads `n` tokens and then returns `status`. -/
def giveUpAfter : Nat → Int → World Nat → Engine Nat Nat
  | 0, status, wd => .ret status wd
  | n + 1, status, wd => .call wd (fun _ _ wd1 => giveUpAfter n status wd1)

/-- A default-constructed record with a zero comment counter. -/
def emptyRisk : QueryRisk Nat := { valid := true, attrs := 0 }

/-- The session for a query that lexes to token 300, a comment, token 301. -/
def commentSession : ParserInterface Nat Nat :=
  ParserInterface.new emptyRisk 24 [plainToken 300 0, tokenAfterComment 301 0]

/-- The lexemes of a query that lexes to 300, 301, a one-character token
(code 40), 302, 303. -/
def charTokenLexemes : List (Lexeme Nat Nat) :=
  [plainToken 300 0, plainToken 301 0, plainToken 40 0, plainToken 302 0, plainToken 303 0]

/-- The session over `charTokenLexemes`. -/
def charTokenSession : ParserInterface Nat Nat :=
  ParserInterface.new emptyRisk 24 charTokenLexemes


/-- The outcome of a failed `parse` on `charTokenSession`. -/
def charTokenResult : ParseResult Nat Nat :=
  (parse 64 (giveUpAfter 2 1) emptyRisk charTokenSession).getD
    { status := 0, qrOut := emptyRisk, pi := charTokenSession }

/-- The session after one failed `parse` call on `charTokenSession`. -/
def charTokenParsed : ParserInterface Nat Nat :=
  (parseCalls 64 (giveUpAfter 2 1) [emptyRisk] charTokenSession).getD charTokenSession

/-! ## The AST nodes -/

/-- Modelled from the spec: the node hierarchy rooted at `AstNode` is declared
outside `InSubselectNode.cpp`.  Every node has the address it was allocated at
and owns an ordered list of children.  `inSubselect` is an `InSubselectNode`:
the boolean `flag` and the pointer `expression` are the two members its
constructor hands to the base class `InValuesListNode`.  `other` stands for a
node of any other variant, with the verdict of its own `isAlwaysTrue()` as the
attribute `alwaysTrue`. -/
inductive AstNode where
  | other (addr : Nat) (alwaysTrue : Bool) (children : List AstNode) : AstNode
  | inSubselect (addr : Nat) (flag : Bool) (expression : Nat)
      (children : List AstNode) : AstNode

/-- The children a node owns. -/
def AstNode.children : AstNode → List AstNode
  | .other _ _ cs => cs
  | .inSubselect _ _ _ cs => cs

/-- Whether the node is an `InSubselectNode`. -/
def AstNode.isInSubselect : AstNode → Bool
  | .other _ _ _ => false
  | .inSubselect _ _ _ _ => true

/-- Modelled from the spec: attaching a child to a node (`AstNode.cpp` is not
among the sources); the child goes to the end of the list. -/
def AstNode.addChild : AstNode → AstNode → AstNode
  | .other a t cs, c => .other a t (cs ++ [c])
  | .inSubselect a f e cs, c => .inSubselect a f e (cs ++ [c])

/-- The expression `new InSubselectNode(expression)` evaluated when the
allocator hands out `addr`: the constructor passes `false` and `expression` to
`InValuesListNode`, and the node has no children yet. -/
def InSubselectNode.new (expression : Nat) (addr : Nat) : AstNode :=
  .inSubselect addr false expression []

/-- The method `InSubselectNode::isAlwaysTrue`. -/
def InSubselectNode.isAlwaysTrue (_this : AstNode) : Bool := false

/-- The method `InSubselectNode::anyIsAlwaysTrue`. -/
def InSubselectNode.anyIsAlwaysTrue (_this : AstNode) : Bool := false

/-- The virtual call `isAlwaysTrue()`. -/
def AstNode.isAlwaysTrue : AstNode → Bool
  | .other _ t _ => t
  | .inSubselect a f e cs => InSubselectNode.isAlwaysTrue (.inSubselect a f e cs)

mutual
/-- The virtual call `anyIsAlwaysTrue()`.  Modelled from the spec for `other`:
the base implementation is the node's own `isAlwaysTrue()` or-ed with
`anyIsAlwaysTrue()` of every child. -/
def AstNode.anyIsAlwaysTrue : AstNode → Bool
  | .other _ t cs => t || anyChildIsAlwaysTrue cs
  | .inSubselect a f e cs => InSubselectNode.anyIsAlwaysTrue (.inSubselect a f e cs)
/-- The disjunction of `anyIsAlwaysTrue()` over a list of children. -/
def anyChildIsAlwaysTrue : List AstNode → Bool
  | [] => false
  | c :: cs => c.anyIsAlwaysTrue || anyChildIsAlwaysTrue cs
end

/-- The method `InSubselectNode::copy`.  `addCopyOfChildren` is the inherited
`AstNode::addCopyOfChildren` bound to `this`; `next` is the address the
allocator hands out next.  The result is the new node and the allocator state
after the call. -/
def InSubselectNode.copy (addCopyOfChildren : AstNode → Nat → AstNode × Nat)
    (expression_ : Nat) (next : Nat) : AstNode × Nat :=
  let temp := InSubselectNode.new expression_ next
  addCopyOfChildren temp (next + 1)

mutual
/-- The virtual call `copy()`.  Modelled from the spec for `other`: a new node
of the same variant with the same attributes, to which copies of the children
are attached. -/
def AstNode.copy : AstNode → Nat → AstNode × Nat
  | .other _ t cs, next => AstNode.addCopyOfChildren cs (.other next t []) (next + 1)
  | .inSubselect _ _ e cs, next => InSubselectNode.copy (AstNode.addCopyOfChildren cs) e next
/-- Modelled from the spec: `AstNode::addCopyOfChildren(temp)` is not among the
sources; it attaches to `temp` a copy of every child of `this`, in order.  The
first argument is the list of children of `this`. -/
def AstNode.addCopyOfChildren : List AstNode → AstNode → Nat → AstNode × Nat
  | [], temp, next => (temp, next)
  | c :: cs, temp, next =>
    let r := c.copy next
    AstNode.addCopyOfChildren cs (temp.addChild r.1) r.2
end

mutual
/-- The addresses of all nodes of a subtree. -/
def AstNode.addrs : AstNode → List Nat
  | .other a _ cs => a :: childrenAddrs cs
  | .inSubselect a _ _ cs => a :: childrenAddrs cs
/-- The addresses of all nodes below a list of children. -/
def childrenAddrs : List AstNode → List Nat
  | [] => []
  | c :: cs => c.addrs ++ childrenAddrs cs
end

/-- The node for `x IN (SELECT y FROM u WHERE 1=1)`: an `InSubselectNode` at
address 0 comparing the expression at address 7, whose one child (address 1) is
always true. -/
def tautologyInSubselect : AstNode :=
  .inSubselect 0 false 7 [.other 1 true []]

/-! ## Arithmetic of the hash step -/

theorem two_pow_pos_int (w : Nat) : (0 : Int) < (2 : Int) ^ w := by positivity

theorem toHashType_modEq (w : Nat) (x : Int) :
    ((toHashType w x : Nat) : Int) ≡ x [ZMOD (2 : Int) ^ w] := by
  unfold toHashType
  rw [Int.toNat_of_nonneg (Int.emod_nonneg _ (ne_of_gt (two_pow_pos_int w)))]
  exact Int.mod_modEq _ _

theorem uadd_modEq (w a b : Nat) :
    ((uadd w a b : Nat) : Int) ≡ (a : Int) + b [ZMOD (2 : Int) ^ w] := by
  unfold uadd
  push_cast
  exact Int.mod_modEq _ _

theorem ushl_modEq (w a k : Nat) :
    ((ushl w a k : Nat) : Int) ≡ (a : Int) * 2 ^ k [ZMOD (2 : Int) ^ w] := by
  unfold ushl
  push_cast
  exact Int.mod_modEq _ _

theorem usub_modEq (w a b : Nat) :
    ((usub w a b : Nat) : Int) ≡ (a : Int) - b [ZMOD (2 : Int) ^ w] := by
  unfold usub
  have hb : b % 2 ^ w ≤ 2 ^ w := (Nat.mod_lt _ (by positivity)).le
  push_cast [Nat.cast_sub hb]
  refine (Int.mod_modEq _ _).trans ?_
  have h1 : ((a : Int) % 2 ^ w) ≡ a [ZMOD (2 : Int) ^ w] := Int.mod_modEq _ _
  have h2 : ((b : Int) % 2 ^ w) ≡ b [ZMOD (2 : Int) ^ w] := Int.mod_modEq _ _
  have h3 : ((2 : Int) ^ w) ≡ 0 [ZMOD (2 : Int) ^ w] := by
    simp [Int.ModEq]
  have := h1.add (h3.sub h2)
  simpa [sub_eq_add_neg] using this

theorem usub_lt (w a b : Nat) : usub w a b < 2 ^ w := Nat.mod_lt _ (by positivity)

theorem sdbmHash_lt (w : Nat) (c : Int) (h : Nat) : sdbmHash w c h < 2 ^ w :=
  usub_lt w _ _

theorem sdbmHash_modEq (w : Nat) (c : Int) (h : Nat) :
    ((sdbmHash w c h : Nat) : Int) ≡ c + 65599 * h [ZMOD (2 : Int) ^ w] := by
  unfold sdbmHash
  refine (usub_modEq w _ _).trans ?_
  have h1 := ((uadd_modEq w (uadd w (toHashType w c) (ushl w h 6)) (ushl w h 16)).trans
    (((uadd_modEq w (toHashType w c) (ushl w h 6)).trans
      ((toHashType_modEq w c).add (ushl_modEq w h 6))).add (ushl_modEq w h 16)))
  have h2 := h1.sub (Int.ModEq.refl (h : Int))
  refine h2.trans ?_
  have : c + (h : Int) * 2 ^ 6 + (h : Int) * 2 ^ 16 - h = c + 65599 * h := by ring
  rw [this]

theorem sdbmHash_cast (w : Nat) (c : Int) (h : Nat) :
    ((sdbmHash w c h : Nat) : Int) = (c + 65599 * h) % (2 : Int) ^ w := by
  have h1 := sdbmHash_modEq w c h
  have h2 : ((sdbmHash w c h : Nat) : Int) % (2 : Int) ^ w = sdbmHash w c h := by
    apply Int.emod_eq_of_lt (by positivity)
    have := sdbmHash_lt w c h
    exact_mod_cast this
  rw [← h2]
  exact h1


/-! ## The fingerprint as a polynomial -/

theorem sdbmPoly_cons (c : Int) (cs : List Int) :
    sdbmPoly (c :: cs) = c * 65599 ^ cs.length + sdbmPoly cs := by
  unfold sdbmPoly
  simp only [List.length_cons]
  rw [Fin.sum_univ_succ]
  congr 1
  apply Finset.sum_congr rfl
  intro i _
  have : cs.length + 1 - 1 - ((i.succ : Fin (cs.length + 1)) : Nat) = cs.length - 1 - (i : Nat) := by
    simp only [Fin.val_succ]; omega
  rw [this]
  rfl

theorem foldl_sdbmHash_modEq (w : Nat) (cs : List Int) (h0 : Nat) :
    ((cs.foldl (fun h c => sdbmHash w c h) h0 : Nat) : Int)
      ≡ (h0 : Int) * 65599 ^ cs.length + sdbmPoly cs [ZMOD (2 : Int) ^ w] := by
  induction cs generalizing h0 with
  | nil => simp [sdbmPoly]
  | cons c t ih =>
    rw [List.foldl_cons, sdbmPoly_cons, List.length_cons]
    refine (ih (sdbmHash w c h0)).trans ?_
    have h1 := ((sdbmHash_modEq w c h0).mul_right ((65599 : Int) ^ t.length)).add_right (sdbmPoly t)
    refine h1.trans ?_
    have : (c + 65599 * (h0 : Int)) * 65599 ^ t.length + sdbmPoly t
        = (h0 : Int) * 65599 ^ (t.length + 1) + (c * 65599 ^ t.length + sdbmPoly t) := by ring
    rw [this]

theorem foldl_foldCode (w : Nat) (cs : List Int) (q : QueryHash) :
    cs.foldl (foldCode w) q =
      { hash := (cs.filter (fun c => decide (c > 255))).foldl (fun h c => sdbmHash w c h) q.hash
        tokensCount := q.tokensCount + (cs.filter (fun c => decide (c > 255))).length } := by
  induction cs generalizing q with
  | nil => simp
  | cons c t ih =>
    rw [List.foldl_cons, ih]
    by_cases hc : c > 255
    · simp [foldCode, hc, List.filter_cons]
      omega
    · simp [foldCode, hc, List.filter_cons]

theorem foldl_sdbmHash_lt (w : Nat) (cs : List Int) (h0 : Nat) (hh : h0 < 2 ^ w) :
    cs.foldl (fun h c => sdbmHash w c h) h0 < 2 ^ w := by
  induction cs generalizing h0 with
  | nil => simpa using hh
  | cons c t ih => exact ih _ (sdbmHash_lt w c h0)

theorem fingerprintOf_tokensCount (w : Nat) (cs : List Int) :
    (fingerprintOf w cs).tokensCount = (cs.filter (fun c => decide (c > 255))).length := by
  unfold fingerprintOf
  rw [foldl_foldCode]
  simp [QueryHash.new]

theorem fingerprintOf_hash (w : Nat) (cs : List Int) :
    ((fingerprintOf w cs).hash : Int)
      = sdbmPoly (cs.filter (fun c => decide (c > 255))) % (2 : Int) ^ w := by
  unfold fingerprintOf
  rw [foldl_foldCode]
  simp only [QueryHash.new]
  have h1 := foldl_sdbmHash_modEq w (cs.filter (fun c => decide (c > 255))) 0
  have h2 := foldl_sdbmHash_lt w (cs.filter (fun c => decide (c > 255))) 0 (by positivity)
  have h3 : (((cs.filter (fun c => decide (c > 255))).foldl (fun h c => sdbmHash w c h) 0 : Nat) : Int)
      % (2 : Int) ^ w = ((cs.filter (fun c => decide (c > 255))).foldl (fun h c => sdbmHash w c h) 0 : Nat) := by
    apply Int.emod_eq_of_lt (by positivity)
    exact_mod_cast h2
  rw [← h3]
  simpa using h1


/-! ## The lexical bridge -/

theorem yylex_lexCode {α LV : Type} (w : Nat) (lvalp : Bool) (qr : QueryRisk α)
    (pi : ParserInterface α LV) :
    (yylex w lvalp qr pi).lexCode
      = (sql_lex lvalp { qr := qr, sc := pi.scannerContext_ } pi.scannerPimpl_).1 := rfl

theorem yylex_tokensHash {α LV : Type} (w : Nat) (lvalp : Bool) (qr : QueryRisk α)
    (pi : ParserInterface α LV) :
    (yylex w lvalp qr pi).pi.tokensHash_
      = foldCode w pi.tokensHash_ (yylex w lvalp qr pi).lexCode := by
  unfold yylex foldCode
  dsimp only
  split <;> rfl

theorem sql_lex_emitted {α LV : Type} (lvalp : Bool) (wd : World α) (s : Scanner α LV) :
    (sql_lex lvalp wd s).2.2.2.emitted = s.emitted ++ [(sql_lex lvalp wd s).1] := by
  unfold sql_lex
  split <;> rfl

theorem yylex_emitted {α LV : Type} (w : Nat) (lvalp : Bool) (qr : QueryRisk α)
    (pi : ParserInterface α LV) :
    (yylex w lvalp qr pi).pi.scannerPimpl_.emitted
      = pi.scannerPimpl_.emitted ++ [(yylex w lvalp qr pi).lexCode] := by
  unfold yylex
  dsimp only
  split <;> exact sql_lex_emitted lvalp _ _

theorem yylex_cached {α LV : Type} (w : Nat) (lvalp : Bool) (qr : QueryRisk α)
    (pi : ParserInterface α LV) :
    (yylex w lvalp qr pi).pi.parsed_ = pi.parsed_
      ∧ (yylex w lvalp qr pi).pi.qr_ = pi.qr_
      ∧ (yylex w lvalp qr pi).pi.parserStatus_ = pi.parserStatus_
      ∧ (yylex w lvalp qr pi).pi.bufferLen_ = pi.bufferLen_ := by
  unfold yylex
  dsimp only
  split <;> exact ⟨rfl, rfl, rfl, rfl⟩

theorem FingerprintInv_new {α LV : Type} (w : Nat) (qr0 : QueryRisk α) (n : Nat)
    (l : List (Lexeme α LV)) : FingerprintInv w (ParserInterface.new qr0 n l) := rfl

theorem FingerprintInv_yylex {α LV : Type} (w : Nat) (lvalp : Bool) (qr : QueryRisk α)
    (pi : ParserInterface α LV) (h : FingerprintInv w pi) :
    FingerprintInv w (yylex w lvalp qr pi).pi := by
  unfold FingerprintInv at *
  rw [yylex_tokensHash, yylex_emitted, h]
  unfold fingerprintOf
  rw [List.foldl_append]
  rfl

theorem runEngine_cached {α LV : Type} (w : Nat) (e : Engine α LV)
    (pi : ParserInterface α LV) :
    (runEngine w e pi).2.2.parsed_ = pi.parsed_
      ∧ (runEngine w e pi).2.2.qr_ = pi.qr_
      ∧ (runEngine w e pi).2.2.parserStatus_ = pi.parserStatus_
      ∧ (runEngine w e pi).2.2.bufferLen_ = pi.bufferLen_ := by
  induction e generalizing pi with
  | ret status wd => exact ⟨rfl, rfl, rfl, rfl⟩
  | call wd k ih =>
    rw [runEngine]
    have h1 := ih (yylex w true wd.qr { pi with scannerContext_ := wd.sc }).lexCode
      (yylex w true wd.qr { pi with scannerContext_ := wd.sc }).lval
      { qr := (yylex w true wd.qr { pi with scannerContext_ := wd.sc }).qr
        sc := (yylex w true wd.qr { pi with scannerContext_ := wd.sc }).pi.scannerContext_ }
      (yylex w true wd.qr { pi with scannerContext_ := wd.sc }).pi
    have h2 := yylex_cached w true wd.qr { pi with scannerContext_ := wd.sc }
    exact ⟨h1.1.trans h2.1, h1.2.1.trans h2.2.1, h1.2.2.1.trans h2.2.2.1,
      h1.2.2.2.trans h2.2.2.2⟩

theorem FingerprintInv_runEngine {α LV : Type} (w : Nat) (e : Engine α LV)
    (pi : ParserInterface α LV) (h : FingerprintInv w pi) :
    FingerprintInv w (runEngine w e pi).2.2 := by
  induction e generalizing pi with
  | ret status wd => exact h
  | call wd k ih =>
    rw [runEngine]
    apply ih
    exact FingerprintInv_yylex w true wd.qr { pi with scannerContext_ := wd.sc } h

theorem drainFuel_cached {α LV : Type} (w n : Nat) (qr : QueryRisk α)
    (pi : ParserInterface α LV) :
    (drainFuel w n qr pi).2.parsed_ = pi.parsed_
      ∧ (drainFuel w n qr pi).2.qr_ = pi.qr_
      ∧ (drainFuel w n qr pi).2.parserStatus_ = pi.parserStatus_
      ∧ (drainFuel w n qr pi).2.bufferLen_ = pi.bufferLen_ := by
  induction n generalizing qr pi with
  | zero => exact ⟨rfl, rfl, rfl, rfl⟩
  | succ n ih =>
    rw [drainFuel]
    have h2 := yylex_cached w false qr pi
    split
    · have h1 := ih (yylex w false qr pi).qr (yylex w false qr pi).pi
      exact ⟨h1.1.trans h2.1, h1.2.1.trans h2.2.1, h1.2.2.1.trans h2.2.2.1,
        h1.2.2.2.trans h2.2.2.2⟩
    · exact h2

theorem FingerprintInv_drainFuel {α LV : Type} (w n : Nat) (qr : QueryRisk α)
    (pi : ParserInterface α LV) (h : FingerprintInv w pi) :
    FingerprintInv w (drainFuel w n qr pi).2 := by
  induction n generalizing qr pi with
  | zero => exact h
  | succ n ih =>
    rw [drainFuel]
    split
    · exact ih _ _ (FingerprintInv_yylex w false qr pi h)
    · exact FingerprintInv_yylex w false qr pi h

/-! ## Invariants of `parse` -/

theorem parse_of_parsed {α LV : Type} (w : Nat) (yyparse : World α → Engine α LV)
    (qrPtr : QueryRisk α) (pi : ParserInterface α LV) (h : pi.parsed_ = true) :
    parse w yyparse qrPtr pi
      = some { status := pi.parserStatus_, qrOut := pi.qr_, pi := pi } := by
  unfold parse
  simp [h]

theorem parse_parsed {α LV : Type} (w : Nat) (yyparse : World α → Engine α LV)
    (qrPtr : QueryRisk α) (pi : ParserInterface α LV) (r : ParseResult α LV)
    (h : parse w yyparse qrPtr pi = some r) : r.pi.parsed_ = true := by
  unfold parse at h
  split at h
  · rename_i hp
    cases h
    exact hp
  · dsimp only at h
    split at h
    · cases h
    · split at h
      · cases h
        exact (drainFuel_cached w _ _ _).1
      · cases h
        rfl

theorem parse_FingerprintInv {α LV : Type} (w : Nat) (yyparse : World α → Engine α LV)
    (qrPtr : QueryRisk α) (pi : ParserInterface α LV) (r : ParseResult α LV)
    (hi : FingerprintInv w pi)
    (h : parse w yyparse qrPtr pi = some r) : FingerprintInv w r.pi := by
  unfold parse at h
  split at h
  · cases h
    exact hi
  · dsimp only at h
    have h0 : FingerprintInv w
        (runEngine w (yyparse { qr := qrPtr, sc := clearStacks pi.scannerContext_ })
          { pi with scannerContext_ := clearStacks pi.scannerContext_ }).2.2 :=
      FingerprintInv_runEngine w _ _ hi
    split at h
    · cases h
    · split at h
      · cases h
        exact FingerprintInv_drainFuel w _ _ _ h0
      · cases h
        exact h0


theorem yylex_pending {α LV : Type} (w : Nat) (lvalp : Bool) (qr : QueryRisk α)
    (pi : ParserInterface α LV) :
    (yylex w lvalp qr pi).pi.scannerPimpl_.pending = pi.scannerPimpl_.pending.tail
      ∧ (pi.scannerPimpl_.pending = [] → (yylex w lvalp qr pi).lexCode = 0) := by
  unfold yylex sql_lex
  dsimp only
  cases hp : pi.scannerPimpl_.pending with
  | nil => simp
  | cons t rest =>
    dsimp only
    constructor
    · split <;> rfl
    · intro h
      cases h

/-- The bound that `drain` puts on its loop is never reached: with any larger
bound the loop ends in the same state. -/
theorem drainFuel_enough {α LV : Type} (w : Nat) (n m : Nat) (qr : QueryRisk α)
    (pi : ParserInterface α LV) (hn : pi.scannerPimpl_.pending.length < n) (hm : n ≤ m) :
    drainFuel w m qr pi = drainFuel w n qr pi := by
  induction n generalizing m qr pi with
  | zero => omega
  | succ n ih =>
    cases m with
    | zero => omega
    | succ m =>
      rw [drainFuel, drainFuel]
      split
      · rename_i hc
        have hy := yylex_pending w false qr pi
        apply ih
        · rw [hy.1]
          cases hp : pi.scannerPimpl_.pending with
          | nil =>
            have := hy.2 hp
            rw [this] at hc
            omega
          | cons t rest =>
            rw [hp] at hn
            simp at hn ⊢
            omega
        · omega
      · rfl

/-! ## The drain loop on a stream without one-character tokens -/

theorem yylex_lexCode_head {α LV : Type} (w : Nat) (lvalp : Bool) (qr : QueryRisk α)
    (pi : ParserInterface α LV) :
    (yylex w lvalp qr pi).lexCode = (pi.scannerPimpl_.pending.head?.map fun t => t.code).getD 0 := by
  unfold yylex sql_lex
  dsimp only
  cases pi.scannerPimpl_.pending <;> rfl

theorem StreamInv_yylex {α LV : Type} (w : Nat) (lvalp : Bool) (qr : QueryRisk α)
    (F : List Int) (pi : ParserInterface α LV) (h : StreamInv F pi) :
    StreamInv F (yylex w lvalp qr pi).pi := by
  unfold StreamInv at *
  rw [yylex_emitted, (yylex_pending w lvalp qr pi).1, yylex_lexCode_head, ← h]
  cases pi.scannerPimpl_.pending with
  | nil => simp
  | cons t rest => by_cases hc : t.code > 255 <;> simp [List.filter_cons, hc]

theorem AllAbove_yylex {α LV : Type} (w : Nat) (lvalp : Bool) (qr : QueryRisk α)
    (pi : ParserInterface α LV) (h : AllAbove pi) : AllAbove (yylex w lvalp qr pi).pi := by
  unfold AllAbove at *
  rw [(yylex_pending w lvalp qr pi).1]
  intro t ht
  exact h t (List.mem_of_mem_tail ht)

theorem runEngine_stream {α LV : Type} (w : Nat) (F : List Int) (e : Engine α LV)
    (pi : ParserInterface α LV) (h : StreamInv F pi ∧ AllAbove pi) :
    StreamInv F (runEngine w e pi).2.2 ∧ AllAbove (runEngine w e pi).2.2 := by
  induction e generalizing pi with
  | ret status wd => exact h
  | call wd k ih =>
    rw [runEngine]
    apply ih
    exact ⟨StreamInv_yylex w true wd.qr F { pi with scannerContext_ := wd.sc } h.1,
      AllAbove_yylex w true wd.qr { pi with scannerContext_ := wd.sc } h.2⟩

theorem drainFuel_stream {α LV : Type} (w n : Nat) (F : List Int) (qr : QueryRisk α)
    (pi : ParserInterface α LV) (h : StreamInv F pi) :
    StreamInv F (drainFuel w n qr pi).2 := by
  induction n generalizing qr pi with
  | zero => exact h
  | succ n ih =>
    rw [drainFuel]
    split
    · exact ih _ _ (StreamInv_yylex w false qr F pi h)
    · exact StreamInv_yylex w false qr F pi h

theorem drainFuel_exhausts {α LV : Type} (w n : Nat) (qr : QueryRisk α)
    (pi : ParserInterface α LV) (h : AllAbove pi)
    (hn : pi.scannerPimpl_.pending.length ≤ n) :
    (drainFuel w (n + 1) qr pi).2.scannerPimpl_.pending = [] := by
  induction n generalizing qr pi with
  | zero =>
    rw [drainFuel]
    have hp : pi.scannerPimpl_.pending = [] := List.length_eq_zero.1 (by omega)
    have hc := (yylex_pending w false qr pi).2 hp
    have ht := (yylex_pending w false qr pi).1
    rw [hp] at ht
    simp [hc, drainFuel, ht]
  | succ n ih =>
    rw [drainFuel]
    have ht := (yylex_pending w false qr pi).1
    split
    · apply ih _ _ (AllAbove_yylex w false qr pi h)
      rw [ht, List.length_tail]
      omega
    · rename_i hc
      rw [yylex_lexCode_head] at hc
      cases hp : pi.scannerPimpl_.pending with
      | nil => rw [ht, hp]; rfl
      | cons t rest =>
        exfalso
        apply hc
        rw [hp]
        exact h t (by rw [hp]; exact List.mem_cons_self _ _)

theorem fingerprintOf_filter (w : Nat) (a b : List Int)
    (h : a.filter (fun c => decide (c > 255)) = b.filter (fun c => decide (c > 255))) :
    fingerprintOf w a = fingerprintOf w b := by
  unfold fingerprintOf
  rw [foldl_foldCode, foldl_foldCode, h]

theorem parse_stream {α LV : Type} (w : Nat) (F : List Int)
    (yyparse : World α → Engine α LV) (qrPtr : QueryRisk α) (pi : ParserInterface α LV)
    (r : ParseResult α LV) (hp : pi.parsed_ = false) (h0 : StreamInv F pi ∧ AllAbove pi)
    (h : parse w yyparse qrPtr pi = some r) (hs : r.status ≠ 0) :
    StreamInv F r.pi ∧ r.pi.scannerPimpl_.pending = [] := by
  have h1 := runEngine_stream w F
    (yyparse { qr := qrPtr, sc := clearStacks pi.scannerContext_ })
    { pi with scannerContext_ := clearStacks pi.scannerContext_ } h0
  unfold parse at h
  split at h
  · rename_i hp1
    rw [hp] at hp1
    cases hp1
  · dsimp only at h
    split at h
    · cases h
    · split at h
      · cases h
        exact ⟨drainFuel_stream w _ F _ _ h1.1, drainFuel_exhausts w _ _ _ h1.2 (le_refl _)⟩
      · rename_i hz
        cases h
        exact absurd hs hz

/-- Where the drain loop does reach the end of the buffer: when every code of
the token stream is above 255 and the grammar engine returns a nonzero status,
the fingerprint after `parse` is the fingerprint of the whole stream. -/
theorem parse_failure_fingerprint_complete {α LV : Type} (w : Nat)
    (yyparse : World α → Engine α LV) (qrPtr qr0 : QueryRisk α) (n : Nat)
    (l : List (Lexeme α LV)) (r : ParseResult α LV)
    (h : parse w yyparse qrPtr (ParserInterface.new qr0 n l) = some r)
    (hs : r.status ≠ 0) (hall : ∀ t ∈ l, t.code > 255) :
    r.pi.tokensHash_ = fingerprintOf w (l.map fun t => t.code)
      ∧ r.pi.scannerPimpl_.pending = [] := by
  have hi := parse_FingerprintInv w yyparse qrPtr _ r (FingerprintInv_new w qr0 n l) h
  have h0 : StreamInv (l.map fun t => t.code) (ParserInterface.new qr0 n l)
      ∧ AllAbove (ParserInterface.new qr0 n l) := by
    constructor
    · simp [StreamInv, ParserInterface.new]
    · exact hall
  have h2 := parse_stream w _ yyparse qrPtr _ r rfl h0 h hs
  refine ⟨?_, h2.2⟩
  rw [hi]
  apply fingerprintOf_filter
  have hq := h2.1
  unfold StreamInv at hq
  rw [h2.2] at hq
  simpa using hq

/-! ## Engines whose decisions depend on the token codes only -/

theorem yylex_sameCodes {α LV : Type} (w : Nat) (lp1 lp2 : Bool) (q1 q2 : QueryRisk α)
    (pi1 pi2 : ParserInterface α LV) (h : SameCodes pi1 pi2) :
    (yylex w lp1 q1 pi1).lexCode = (yylex w lp2 q2 pi2).lexCode
      ∧ SameCodes (yylex w lp1 q1 pi1).pi (yylex w lp2 q2 pi2).pi := by
  have hc : (yylex w lp1 q1 pi1).lexCode = (yylex w lp2 q2 pi2).lexCode := by
    rw [yylex_lexCode_head, yylex_lexCode_head, ← List.head?_map, ← List.head?_map, h.2]
  refine ⟨hc, ?_, ?_⟩
  · rw [yylex_tokensHash, yylex_tokensHash, hc, h.1]
  · rw [(yylex_pending w lp1 q1 pi1).1, (yylex_pending w lp2 q2 pi2).1, List.map_tail,
      List.map_tail, h.2]

theorem runEngine_sameControl {α LV : Type} (w : Nat) (e1 e2 : Engine α LV)
    (he : SameControl e1 e2) (pi1 pi2 : ParserInterface α LV) (h : SameCodes pi1 pi2) :
    (runEngine w e1 pi1).1 = (runEngine w e2 pi2).1
      ∧ SameCodes (runEngine w e1 pi1).2.2 (runEngine w e2 pi2).2.2 := by
  induction he generalizing pi1 pi2 with
  | ret status wd1 wd2 => exact ⟨rfl, h⟩
  | call wd1 wd2 k1 k2 _ ih =>
    rw [runEngine, runEngine]
    have hy := yylex_sameCodes w true true wd1.qr wd2.qr
      { pi1 with scannerContext_ := wd1.sc } { pi2 with scannerContext_ := wd2.sc } h
    rw [hy.1]
    exact ih _ _ _ _ _ _ _ hy.2

theorem drainFuel_sameCodes {α LV : Type} (w n : Nat) (q1 q2 : QueryRisk α)
    (pi1 pi2 : ParserInterface α LV) (h : SameCodes pi1 pi2) :
    SameCodes (drainFuel w n q1 pi1).2 (drainFuel w n q2 pi2).2 := by
  induction n generalizing q1 q2 pi1 pi2 with
  | zero => exact h
  | succ n ih =>
    rw [drainFuel, drainFuel]
    have hy := yylex_sameCodes w false false q1 q2 pi1 pi2 h
    rw [hy.1]
    split
    · exact ih _ _ _ _ hy.2
    · exact hy.2

theorem parse_sameCodes {α LV : Type} (w : Nat) (yyparse : World α → Engine α LV)
    (hcd : ∀ wd1 wd2, SameControl (yyparse wd1) (yyparse wd2))
    (q1 q2 : QueryRisk α) (pi1 pi2 : ParserInterface α LV) (r1 r2 : ParseResult α LV)
    (hp1 : pi1.parsed_ = false) (hp2 : pi2.parsed_ = false) (h : SameCodes pi1 pi2)
    (h1 : parse w yyparse q1 pi1 = some r1) (h2 : parse w yyparse q2 pi2 = some r2) :
    r1.status = r2.status ∧ SameCodes r1.pi r2.pi := by
  have he := runEngine_sameControl w
    (yyparse { qr := q1, sc := clearStacks pi1.scannerContext_ })
    (yyparse { qr := q2, sc := clearStacks pi2.scannerContext_ }) (hcd _ _)
    { pi1 with scannerContext_ := clearStacks pi1.scannerContext_ }
    { pi2 with scannerContext_ := clearStacks pi2.scannerContext_ } h
  have hlen := congrArg List.length he.2.2
  simp only [List.length_map] at hlen
  unfold parse at h1 h2
  split at h1
  · rename_i hq
    rw [hp1] at hq
    cases hq
  split at h2
  · rename_i hq
    rw [hp2] at hq
    cases hq
  dsimp only at h1 h2
  split at h1
  · cases h1
  split at h2
  · cases h2
  split at h1
  · rename_i hs1
    split at h2
    · cases h1
      cases h2
      refine ⟨he.1, ?_⟩
      unfold drain
      dsimp only
      rw [hlen]
      exact drainFuel_sameCodes w _ _ _ _ _ he.2
    · rename_i hs2
      exact absurd (he.1 ▸ hs1) hs2
  · rename_i hs1
    split at h2
    · rename_i hs2
      exact absurd (he.1 ▸ hs2) hs1
    · cases h1
      cases h2
      exact ⟨he.1, he.2⟩

/-- When the decisions of the grammar engine depend on the token codes only, two
fresh sessions whose token streams carry the same codes end `parse` with the
same status and the same fingerprint, whatever the semantic values are. -/
theorem fingerprint_same_stream_codes {α LV : Type} (w : Nat)
    (yyparse : World α → Engine α LV)
    (hcd : ∀ wd1 wd2, SameControl (yyparse wd1) (yyparse wd2))
    (q1 q2 qa qb : QueryRisk α) (n1 n2 : Nat) (l1 l2 : List (Lexeme α LV))
    (r1 r2 : ParseResult α LV)
    (h1 : parse w yyparse q1 (ParserInterface.new qa n1 l1) = some r1)
    (h2 : parse w yyparse q2 (ParserInterface.new qb n2 l2) = some r2)
    (hl : (l1.map fun t => t.code) = (l2.map fun t => t.code)) :
    r1.status = r2.status ∧ QueryHash.beq r1.pi.tokensHash_ r2.pi.tokensHash_ = true := by
  have h := parse_sameCodes w yyparse hcd q1 q2 (ParserInterface.new qa n1 l1)
    (ParserInterface.new qb n2 l2) r1 r2 rfl rfl ⟨rfl, hl⟩ h1 h2
  refine ⟨h.1, ?_⟩
  rw [h.2.1]
  simp [QueryHash.beq]

/-! ## The claims about the parsing adapter -/

theorem eq_some_getD {β : Type} (o : Option β) (d : β) (h : o.isSome = true) :
    o = some (o.getD d) := by
  cases o with
  | none => cases h
  | some x => rfl

theorem parse_status_cached {α LV : Type} (w : Nat) (yyparse : World α → Engine α LV)
    (qrPtr : QueryRisk α) (pi : ParserInterface α LV) (r : ParseResult α LV)
    (h : parse w yyparse qrPtr pi = some r) : r.pi.parserStatus_ = r.status := by
  unfold parse at h
  split at h
  · cases h
    rfl
  · dsimp only at h
    split at h
    · cases h
    · split at h
      · cases h
        exact (drainFuel_cached w _ _ _).2.2.1
      · cases h
        rfl

/-- After a `parse` that returned status zero the cached record is the record
handed to the caller, so a second call hands back the same record. -/
theorem parse_record_cached_of_success {α LV : Type} (w : Nat)
    (yyparse : World α → Engine α LV) (qrPtr : QueryRisk α) (pi : ParserInterface α LV)
    (r : ParseResult α LV) (h : parse w yyparse qrPtr pi = some r)
    (hs : r.status = 0) (hp : pi.parsed_ = false) : r.pi.qr_ = r.qrOut := by
  unfold parse at h
  split at h
  · rename_i hq
    rw [hp] at hq
    cases hq
  · dsimp only at h
    split at h
    · cases h
    · split at h
      · rename_i hz
        cases h
        exact absurd hs hz
      · cases h
        rfl

/-- Status and fingerprint are the same after a second `parse` as after the
first, whatever the engine and the lexer do. -/
theorem parse_twice_status_fingerprint {α LV : Type} (w : Nat)
    (yyparse : World α → Engine α LV) (q1 q2 : QueryRisk α) (pi : ParserInterface α LV)
    (r1 : ParseResult α LV) (h : parse w yyparse q1 pi = some r1) :
    ∃ r2, parse w yyparse q2 r1.pi = some r2 ∧ r2.status = r1.status
      ∧ getHash r2.pi = getHash r1.pi ∧ r2.pi = r1.pi := by
  refine ⟨_, parse_of_parsed w yyparse q2 r1.pi (parse_parsed w yyparse q1 pi r1 h), ?_, rfl, rfl⟩
  exact parse_status_cached w yyparse q1 pi r1 h

/-- C1 evaluated on a failing parse whose unread input holds a comment: the
first `parse` hands the caller a record in which the drain loop has counted the
comment (counter 1); the second `parse` hands back the record cached before the
drain loop ran (counter 0).  The status is 1 both times. -/
theorem parse_twice_record_differs :
    (parse 64 (giveUpAfter 1 1) emptyRisk commentSession).map
        (fun r => (r.status, r.qrOut.attrs)) = some (1, 1)
      ∧ ((parse 64 (giveUpAfter 1 1) emptyRisk commentSession).bind
          fun r => (parse 64 (giveUpAfter 1 1) r.qrOut r.pi).map
            fun r2 => (r2.status, r2.qrOut.attrs)) = some (1, 0) := by
  decide

/-- C2 evaluated on the token stream 300, 301, 40, 302, 303 with a grammar
engine that gives up (status 1) after two tokens: the drain loop stops at the
code 40, so the fingerprint counts 2 tokens and the codes 302 and 303 are still
unread, whereas the whole stream holds 4 codes above 255 and has another hash. -/
theorem drain_stops_at_char_token :
    ((parse 64 (giveUpAfter 2 1) emptyRisk charTokenSession).bind fun r => getHash r.pi)
        = some { hash := 19680001, tokensCount := 2 }
      ∧ ((parse 64 (giveUpAfter 2 1) emptyRisk charTokenSession).map
          fun r => r.pi.scannerPimpl_.pending.map fun t => t.code) = some [302, 303]
      ∧ (fingerprintOf 64 [300, 301, 40, 302, 303]).tokensCount = 4
      ∧ (fingerprintOf 64 [300, 301, 40, 302, 303]).hash ≠ 19680001 := by
  decide

/-- C4: `yylex` returns the code `c` of the raw lexer unchanged; when `c > 255`
the count grows by one and the hash becomes
`(c + hash * 2^6 + hash * 2^16 - hash) mod 2^w`, and when `c ≤ 255` the
fingerprint stays as it was. -/
theorem yylex_step {α LV : Type} (w : Nat) (lvalp : Bool) (qr : QueryRisk α)
    (pi : ParserInterface α LV) :
    (yylex w lvalp qr pi).lexCode
        = (sql_lex lvalp { qr := qr, sc := pi.scannerContext_ } pi.scannerPimpl_).1
      ∧ (yylex w lvalp qr pi).pi.tokensHash_
        = if (sql_lex lvalp { qr := qr, sc := pi.scannerContext_ } pi.scannerPimpl_).1 > 255 then
            { hash :=
                (((sql_lex lvalp { qr := qr, sc := pi.scannerContext_ } pi.scannerPimpl_).1
                    + (pi.tokensHash_.hash : Int) * 2 ^ 6
                    + (pi.tokensHash_.hash : Int) * 2 ^ 16
                    - (pi.tokensHash_.hash : Int)) % (2 : Int) ^ w).toNat
              tokensCount := pi.tokensHash_.tokensCount + 1 }
          else pi.tokensHash_ := by
  refine ⟨rfl, ?_⟩
  rw [yylex_tokensHash, yylex_lexCode]
  unfold foldCode
  split
  · congr 1
    have h := sdbmHash_cast w
      (sql_lex lvalp { qr := qr, sc := pi.scannerContext_ } pi.scannerPimpl_).1
      pi.tokensHash_.hash
    have e : (sql_lex lvalp { qr := qr, sc := pi.scannerContext_ } pi.scannerPimpl_).1
          + (pi.tokensHash_.hash : Int) * 2 ^ 6 + (pi.tokensHash_.hash : Int) * 2 ^ 16
          - (pi.tokensHash_.hash : Int)
        = (sql_lex lvalp { qr := qr, sc := pi.scannerContext_ } pi.scannerPimpl_).1
          + 65599 * (pi.tokensHash_.hash : Int) := by ring
    rw [e, ← h]
    simp
  · rfl

theorem parseCalls_parsed {α LV : Type} (w : Nat) (yyparse : World α → Engine α LV)
    (calls : List (QueryRisk α)) (pi pi' : ParserInterface α LV)
    (h : parseCalls w yyparse calls pi = some pi') :
    pi'.parsed_ = (if calls.isEmpty then pi.parsed_ else true) := by
  induction calls generalizing pi with
  | nil =>
    simp only [parseCalls, Option.some.injEq] at h
    simp [h]
  | cons q qs ih =>
    rw [parseCalls] at h
    split at h
    · cases h
    · rename_i r hr
      have hp := parse_parsed w yyparse q pi r hr
      have := ih r.pi h
      rw [this]
      simp [hp]

/-- C5: `getHash` fails exactly on a session whose `parsed_` flag is unset; on a
session reached from the constructor by a sequence of `parse` calls it fails if
and only if the sequence is empty, and otherwise returns the accumulated
fingerprint, whatever statuses the calls returned. -/
theorem getHash_fails_iff_never_parsed {α LV : Type} (w : Nat)
    (yyparse : World α → Engine α LV) (qr0 : QueryRisk α) (n : Nat)
    (l : List (Lexeme α LV)) (calls : List (QueryRisk α)) (pi' : ParserInterface α LV)
    (h : parseCalls w yyparse calls (ParserInterface.new qr0 n l) = some pi') :
    (getHash pi' = none ↔ pi'.parsed_ = false)
      ∧ (getHash pi' = none ↔ calls = [])
      ∧ getHash pi' = (if calls.isEmpty then none else some pi'.tokensHash_)
      ∧ getHash (ParserInterface.new qr0 n l) = none := by
  have hp := parseCalls_parsed w yyparse calls _ pi' h
  cases calls with
  | nil =>
    have : pi'.parsed_ = false := by simpa [ParserInterface.new] using hp
    simp [getHash, this, ParserInterface.new]
  | cons q qs =>
    have : pi'.parsed_ = true := by simpa using hp
    simp [getHash, this, ParserInterface.new]

theorem getHash_fails_iff_never_parsed_witness :
    (parse 64 (giveUpAfter 2 1) emptyRisk charTokenSession).map (fun r => r.status) = some 1
      ∧ (getHash charTokenParsed = none ↔ charTokenParsed.parsed_ = false)
      ∧ (getHash charTokenParsed = none ↔ [emptyRisk] = [])
      ∧ getHash charTokenParsed
          = (if [emptyRisk].isEmpty then none else some charTokenParsed.tokensHash_)
      ∧ getHash charTokenSession = none :=
  ⟨by decide,
    getHash_fails_iff_never_parsed 64 (giveUpAfter 2 1) emptyRisk 24 charTokenLexemes
      [emptyRisk] charTokenParsed (eq_some_getD _ _ (by decide))⟩

/-- C8: a `parse` call that returns leaves the `parsed_` flag set; on a session
whose flag was already set it returns the cached status and record and leaves
the whole session as it was; and after it every further call, with any engine
and any record, returns the cached status and record and leaves every field as
it is, the scanner and its history of returned codes included, so neither the
grammar engine nor the raw lexer runs again. -/
theorem parse_at_most_once {α LV : Type} (w : Nat) (yyparse : World α → Engine α LV)
    (qrPtr : QueryRisk α) (pi : ParserInterface α LV) (r : ParseResult α LV)
    (h : parse w yyparse qrPtr pi = some r) :
    r.pi.parsed_ = true
      ∧ (pi.parsed_ = true → r.pi = pi ∧ r.status = pi.parserStatus_ ∧ r.qrOut = pi.qr_)
      ∧ ∀ (yyparse2 : World α → Engine α LV) (q2 : QueryRisk α),
          parse w yyparse2 q2 r.pi
            = some { status := r.pi.parserStatus_, qrOut := r.pi.qr_, pi := r.pi } := by
  have hp := parse_parsed w yyparse qrPtr pi r h
  refine ⟨hp, ?_, fun yyparse2 q2 => parse_of_parsed w yyparse2 q2 r.pi hp⟩
  intro hpi
  rw [parse_of_parsed w yyparse qrPtr pi hpi] at h
  cases h
  exact ⟨rfl, rfl, rfl⟩

theorem parse_at_most_once_witness :
    charTokenSession.parsed_ = false ∧ charTokenResult.pi.parsed_ = true
      ∧ (charTokenSession.parsed_ = true → charTokenResult.pi = charTokenSession
          ∧ charTokenResult.status = charTokenSession.parserStatus_
          ∧ charTokenResult.qrOut = charTokenSession.qr_)
      ∧ ∀ (yyparse2 : World Nat → Engine Nat Nat) (q2 : QueryRisk Nat),
          parse 64 yyparse2 q2 charTokenResult.pi
            = some { status := charTokenResult.pi.parserStatus_
                     qrOut := charTokenResult.pi.qr_, pi := charTokenResult.pi } :=
  ⟨by decide, parse_at_most_once 64 (giveUpAfter 2 1) emptyRisk charTokenSession
    charTokenResult (eq_some_getD _ _ (by decide))⟩

/-- C10: one step of `sdbmHash` is multiplication by 65599 plus the code, modulo
`2^w`; hence the hash of the fingerprint of a code sequence is the polynomial
`∑ cᵢ · 65599 ^ (n - 1 - i)` over its codes above 255, modulo `2^w`. -/
theorem sdbmHash_is_multiply_add (w : Nat) :
    (∀ (c : Int) (h : Nat), ((sdbmHash w c h : Nat) : Int) = (c + 65599 * h) % (2 : Int) ^ w)
      ∧ ∀ cs : List Int, ((fingerprintOf w cs).hash : Int)
          = (∑ i : Fin (cs.filter (fun c => decide (c > 255))).length,
              (cs.filter (fun c => decide (c > 255))).get i
                * 65599 ^ ((cs.filter (fun c => decide (c > 255))).length - 1 - (i : Nat)))
            % (2 : Int) ^ w :=
  ⟨sdbmHash_cast w, fingerprintOf_hash w⟩

/-! ## The claims about the IN-subselect node -/

theorem anyChildIsAlwaysTrue_iff (cs : List AstNode) :
    anyChildIsAlwaysTrue cs = true ↔ ∃ c ∈ cs, c.anyIsAlwaysTrue = true := by
  induction cs with
  | nil => simp [anyChildIsAlwaysTrue]
  | cons c t ih => simp [anyChildIsAlwaysTrue, ih]

/-- C6: an `InSubselectNode` is never a tautology: whatever its address, flag,
compared expression and children, `isAlwaysTrue()` and `anyIsAlwaysTrue()` both
return `false`. -/
theorem inSubselect_never_always_true (addr : Nat) (flag : Bool) (expression : Nat)
    (children : List AstNode) :
    (AstNode.inSubselect addr flag expression children).isAlwaysTrue = false
      ∧ (AstNode.inSubselect addr flag expression children).anyIsAlwaysTrue = false := by
  constructor
  · rfl
  · simp [AstNode.anyIsAlwaysTrue, InSubselectNode.anyIsAlwaysTrue]

/-- C7 fails as stated: for the `InSubselectNode` of
`x IN (SELECT y FROM u WHERE 1=1)`, whose child is always true,
`anyIsAlwaysTrue()` is not equivalent to "own `isAlwaysTrue()` or
`anyIsAlwaysTrue()` of some child". -/
theorem anyIsAlwaysTrue_composition_fails :
    ¬ (tautologyInSubselect.anyIsAlwaysTrue = true
        ↔ (tautologyInSubselect.isAlwaysTrue = true
            ∨ ∃ c ∈ tautologyInSubselect.children, c.anyIsAlwaysTrue = true)) := by
  simp [tautologyInSubselect, AstNode.anyIsAlwaysTrue, InSubselectNode.anyIsAlwaysTrue,
    AstNode.children, anyChildIsAlwaysTrue, AstNode.isAlwaysTrue,
    InSubselectNode.isAlwaysTrue]

/-- C7, amended: `anyIsAlwaysTrue()` of a node is true if and only if the node
is not an `InSubselectNode` and its own `isAlwaysTrue()` is true or
`anyIsAlwaysTrue()` is true for one of its children; for an `InSubselectNode`
it is false whatever the children are. -/
theorem anyIsAlwaysTrue_composition (n : AstNode) :
    n.anyIsAlwaysTrue = true
      ↔ n.isInSubselect = false
          ∧ (n.isAlwaysTrue = true ∨ ∃ c ∈ n.children, c.anyIsAlwaysTrue = true) := by
  cases n with
  | other a t cs =>
    simp [AstNode.anyIsAlwaysTrue, AstNode.isInSubselect, AstNode.isAlwaysTrue,
      AstNode.children, anyChildIsAlwaysTrue_iff]
  | inSubselect a f e cs =>
    simp [AstNode.anyIsAlwaysTrue, InSubselectNode.anyIsAlwaysTrue, AstNode.isInSubselect]

theorem childrenAddrs_append (l1 l2 : List AstNode) :
    childrenAddrs (l1 ++ l2) = childrenAddrs l1 ++ childrenAddrs l2 := by
  induction l1 with
  | nil => simp [childrenAddrs]
  | cons c t ih => simp [childrenAddrs, ih]

theorem mem_addrs_addChild (temp c : AstNode) (x : Nat) :
    x ∈ (temp.addChild c).addrs ↔ x ∈ temp.addrs ∨ x ∈ c.addrs := by
  cases temp <;>
    simp [AstNode.addChild, AstNode.addrs, childrenAddrs_append, childrenAddrs, or_assoc]

mutual
theorem copy_fresh : ∀ (n : AstNode) (next : Nat),
    next < (n.copy next).2 ∧ ∀ x ∈ (n.copy next).1.addrs, next ≤ x ∧ x < (n.copy next).2
  | .other _ t cs, next => by
    have h := addCopyOfChildren_fresh cs (.other next t []) (next + 1) next (by omega)
      (by intro x hx; simp [AstNode.addrs, childrenAddrs] at hx; omega)
    rw [AstNode.copy]
    exact ⟨by omega, h.2⟩
  | .inSubselect _ _ e cs, next => by
    have h := addCopyOfChildren_fresh cs (InSubselectNode.new e next) (next + 1) next (by omega)
      (by intro x hx; simp [InSubselectNode.new, AstNode.addrs, childrenAddrs] at hx; omega)
    rw [AstNode.copy, InSubselectNode.copy]
    exact ⟨by omega, h.2⟩
theorem addCopyOfChildren_fresh : ∀ (cs : List AstNode) (temp : AstNode) (next lo : Nat),
    lo ≤ next → (∀ x ∈ temp.addrs, lo ≤ x ∧ x < next) →
    next ≤ (AstNode.addCopyOfChildren cs temp next).2
      ∧ ∀ x ∈ (AstNode.addCopyOfChildren cs temp next).1.addrs,
          lo ≤ x ∧ x < (AstNode.addCopyOfChildren cs temp next).2
  | [], temp, next, lo, _, ht => by
    rw [AstNode.addCopyOfChildren]
    exact ⟨le_refl _, ht⟩
  | c :: cs, temp, next, lo, hlo, ht => by
    have hc := copy_fresh c next
    have h := addCopyOfChildren_fresh cs (temp.addChild (c.copy next).1) (c.copy next).2 lo
      (by omega)
      (by
        intro x hx
        rcases (mem_addrs_addChild _ _ _).1 hx with h1 | h1
        · have := ht x h1; omega
        · have := hc.2 x h1; omega)
    rw [AstNode.addCopyOfChildren]
    exact ⟨by have := h.1; omega, h.2⟩
end

theorem foldl_addChild_inSubselect (L : List AstNode) (a : Nat) (f : Bool) (e : Nat)
    (cs0 : List AstNode) :
    L.foldl AstNode.addChild (.inSubselect a f e cs0) = .inSubselect a f e (cs0 ++ L) := by
  induction L generalizing cs0 with
  | nil => simp
  | cons c t ih => simp [AstNode.addChild, ih]

theorem addCopyOfChildren_children (cs : List AstNode) (temp : AstNode) (next : Nat) :
    ∃ L, List.Forall₂ (fun c c' => ∃ nx, c' = (c.copy nx).1) cs L
      ∧ (AstNode.addCopyOfChildren cs temp next).1 = L.foldl AstNode.addChild temp := by
  induction cs generalizing temp next with
  | nil => exact ⟨[], List.Forall₂.nil, by simp [AstNode.addCopyOfChildren]⟩
  | cons c t ih =>
    obtain ⟨L, hL, hE⟩ := ih (temp.addChild (c.copy next).1) (c.copy next).2
    refine ⟨(c.copy next).1 :: L, List.Forall₂.cons ⟨next, rfl⟩ hL, ?_⟩
    rw [AstNode.addCopyOfChildren]
    simpa using hE

/-- C9: `copy()` of an `InSubselectNode` is an `InSubselectNode` at the freshly
allocated address, built with the flag `false` and the same compared
expression; its children are, in the same order, the results of `copy()` on the
children of the original; every address in the copy was handed out during the
call, so no node of the original is reused; and `isAlwaysTrue()` and
`anyIsAlwaysTrue()` agree on the copy and the original.  The original is a
value that `copy` only reads. -/
theorem inSubselect_copy (addr : Nat) (flag : Bool) (expression : Nat)
    (children : List AstNode) (next : Nat) :
    ∃ children',
      ((AstNode.inSubselect addr flag expression children).copy next).1
          = .inSubselect next false expression children'
        ∧ List.Forall₂ (fun c c' => ∃ nx, c' = (c.copy nx).1) children children'
        ∧ (∀ x ∈ ((AstNode.inSubselect addr flag expression children).copy next).1.addrs,
            next ≤ x ∧ x < ((AstNode.inSubselect addr flag expression children).copy next).2)
        ∧ ((AstNode.inSubselect addr flag expression children).copy next).1.isAlwaysTrue
            = (AstNode.inSubselect addr flag expression children).isAlwaysTrue
        ∧ ((AstNode.inSubselect addr flag expression children).copy next).1.anyIsAlwaysTrue
            = (AstNode.inSubselect addr flag expression children).anyIsAlwaysTrue := by
  obtain ⟨L, hL, hE⟩ := addCopyOfChildren_children children (InSubselectNode.new expression next)
    (next + 1)
  have hcopy : ((AstNode.inSubselect addr flag expression children).copy next).1
      = .inSubselect next false expression L := by
    rw [AstNode.copy, InSubselectNode.copy]
    rw [hE, InSubselectNode.new, foldl_addChild_inSubselect]
    simp
  refine ⟨L, hcopy, hL, (copy_fresh _ next).2, ?_, ?_⟩
  · rw [hcopy]; rfl
  · rw [hcopy]
    simp [AstNode.anyIsAlwaysTrue, InSubselectNode.anyIsAlwaysTrue]

end SQLassie
